import Mathlib

/-!
# Bergson scheduler: shallow embedding and verification

This file embeds the scheduler engine of the bergson repository
(src/js/scheduler.js) in Lean 4 and proves properties of it.

Modelling conventions:
* Clock times, offsets and the time scale are rationals (the source uses
  JS numbers; we do not model floating-point rounding).
* A JS field that may be `undefined` is an `Option`.
* A callback value is represented by `Option Nat`: `some n` is a function
  with identity `n` (`typeof callback === "function"`), `none` is a
  missing or non-function value.
* The `end` field of a repeating spec can hold the JS value `Infinity`
  after expansion, so it is stored as an `Option JsTime`.
* Invoking a callback is observable: the scheduler state carries a log of
  `(event id, invocation time)` pairs, appended to on each invocation.
  Callbacks may also reenter the scheduler, so the semantics of the
  callback body is a parameter `cb : CbSem`; the purely observational
  callback is `logCb`.
* The priority queue (`berg.priorityQueue`) is used by the scheduler but
  its own source is not part of the modelled core; it is modelled from
  the spec as a list with minimum-priority peek, exact pop of the peeked
  item, and identity-based removal.  Object identity is modelled by the
  `id` field of a spec.
-/

namespace berg

/-- A JS numeric value that may be `Infinity`, as stored in a repeating
spec's `end` field after expansion. -/
inductive JsTime where
  | num (q : ℚ)
  | inf
deriving DecidableEq, Repr

/-- The JS comparison `end > now` where `end` may be a number, `Infinity`,
or `undefined` (`undefined > now` is `NaN > now`, which is false). -/
def jsEndGt : Option JsTime → ℚ → Bool
  | some (JsTime.num q), now => decide (now < q)
  | some JsTime.inf, _ => true
  | none, _ => false

/-- A score event specification (the object literal mutated in place by
`berg.scheduler`).  `endv` is the source's `end` field (`end` is reserved
in Lean).  `interval` and `priority` are written by the scheduler before
they are ever read; their default values stand for JS `undefined`.
`id` models the JS object identity of the spec. -/
structure EventSpec where
  type : Option String
  time : Option ℚ
  freq : Option ℚ
  endv : Option JsTime
  callback : Option Nat
  scheduledAt : Option ℚ
  interval : ℚ := 0
  priority : ℚ := 0
  id : Nat := 0
deriving DecidableEq, Repr

/-- Modelled from the spec: `berg.priorityQueue` (its source is not part
of the modelled core).  A mapping from queued item to numeric priority
supporting push, peek-minimum, pop-minimum, identity-based removal,
clear, and iteration over `items` for rescaling.  Items carry their
priority in their `priority` field, as the scheduler's code assumes. -/
structure PQueue where
  items : List EventSpec
deriving DecidableEq, Repr

/-- Modelled from the spec: `peek` returns a minimum-priority item
without removing it (first such item; ties have no guaranteed order). -/
def PQueue.peek (q : PQueue) : Option EventSpec :=
  q.items.argmin EventSpec.priority

/-- Modelled from the spec: `pop` removes the minimum-priority item
returned by `peek`. -/
def PQueue.pop (q : PQueue) : PQueue :=
  match q.peek with
  | none => q
  | some m => ⟨q.items.erase m⟩

/-- Modelled from the spec: `push` inserts an item. -/
def PQueue.push (q : PQueue) (e : EventSpec) : PQueue :=
  ⟨q.items ++ [e]⟩

/-- Modelled from the spec: `remove` removes a specific previously-pushed
item by identity (exact, no removal of an equal-priority sibling). -/
def PQueue.remove (q : PQueue) (e : EventSpec) : PQueue :=
  ⟨q.items.eraseP (fun x => x.id == e.id)⟩

/-- Modelled from the spec: `clear` empties the structure. -/
def PQueue.clear (_q : PQueue) : PQueue :=
  ⟨[]⟩

/-- The scheduler component's state: its queue, the `timeScale` model
value, the clock's current time (`that.clock.time`), and the log of
callback invocations `(event id, invocation time)`. -/
structure SchedulerState where
  queue : PQueue
  timeScale : ℚ
  time : ℚ
  log : List (Nat × ℚ)
deriving DecidableEq, Repr

/-- The semantics of a callback body: given the invocation time, the spec
being evaluated and the scheduler state, it returns the new state.
Callbacks may reenter the scheduler. -/
abbrev CbSem : Type :=
  ℚ → EventSpec → SchedulerState → SchedulerState

/-- The purely observational callback: it only records its invocation. -/
def logCb : CbSem :=
  fun now e s => { s with log := s.log ++ [(e.id, now)] }

namespace scheduler

/-- `berg.scheduler.calcPriority`. -/
def calcPriority (baseTime timeOffset timeScale : ℚ) : ℚ :=
  baseTime + timeOffset * timeScale

/-- `berg.scheduler.scaleEventTimes`: rewrites each queued item's
priority as `calcPriority(item.scheduledAt, item.time, timeScale)`.
Queued items always have `scheduledAt` and `time` set. -/
def scaleEventTimes (queue : PQueue) (timeScale : ℚ) : PQueue :=
  ⟨queue.items.map fun item =>
    { item with
      priority := calcPriority (item.scheduledAt.getD 0) (item.time.getD 0) timeScale }⟩

/-- `berg.scheduler.expandRepeatingEventSpec`: defaults `time` to 0,
sets `interval = 1.0 / freq` and absolutizes `end` (defaulting to
`Infinity`).  When `freq` is absent the spec fails validation before
`interval` is ever read, so `getD 0` is unobservable there; JS yields
`Infinity` for `freq = 0`, the rational model yields `0`, so statements
about repeating behaviour below assume a nonzero `freq`. -/
def expandRepeatingEventSpec (now : ℚ) (eventSpec : EventSpec) : EventSpec :=
  let e1 := if eventSpec.time.isSome then eventSpec else { eventSpec with time := some 0 }
  let e2 := { e1 with interval := 1 / e1.freq.getD 0 }
  { e2 with
    endv := match e2.endv with
      | some (JsTime.num x) => some (JsTime.num (x + now))
      | _ => some JsTime.inf }

/-- `berg.scheduler.validateEventSpec`: returns the error message thrown,
or `none` when the spec is valid. -/
def validateEventSpec (eventSpec : EventSpec) : Option String :=
  if eventSpec.callback.isNone then
    some "No callback was specified for scheduled event"
  else if eventSpec.type == some "repeat" && eventSpec.freq.isNone then
    some "No freq was specified for scheduled event"
  else if eventSpec.time.isNone then
    some "No time was specified for scheduled event"
  else
    none

/-- `berg.scheduler.evaluateScoreEvent`: invokes the callback, then, for
a repeating event whose `end` is still in the future, computes the next
priority and pushes it back onto the queue (the queue as left by the
callback, which may have reentered the scheduler). -/
def evaluateScoreEvent (cb : CbSem) (scoreEvent : EventSpec) (now timeScale : ℚ)
    (s : SchedulerState) : SchedulerState :=
  let s1 := cb now scoreEvent s
  if scoreEvent.type == some "repeat" && jsEndGt scoreEvent.endv now then
    { s1 with
      queue := s1.queue.push
        { scoreEvent with priority := calcPriority now scoreEvent.interval timeScale } }
  else
    s1

/-- `berg.scheduler.scheduleEvent`: normalizes, expands repeats, stamps
`scheduledAt`, validates (an `Except.error` is the thrown exception),
computes the priority and either evaluates the spec immediately or
pushes it.  Returns the mutated spec alongside the new state. -/
def scheduleEvent (cb : CbSem) (eventSpec : EventSpec) (s : SchedulerState) :
    Except String (EventSpec × SchedulerState) :=
  let now := s.time
  let timeScale := s.timeScale
  let e1 := if eventSpec.type.isNone then { eventSpec with type := some "once" } else eventSpec
  let e2 := if e1.type == some "repeat" then expandRepeatingEventSpec now e1 else e1
  let e3 := if e2.scheduledAt.isSome then e2 else { e2 with scheduledAt := some now }
  match validateEventSpec e3 with
  | some msg => Except.error msg
  | none =>
    let e4 := { e3 with priority := calcPriority now (e3.time.getD 0) timeScale }
    if e4.priority ≤ now then
      Except.ok (e4, evaluateScoreEvent cb e4 now timeScale s)
    else
      Except.ok (e4, { s with queue := s.queue.push e4 })

/-- The spec literal built by `berg.scheduler.once` (identity `i`). -/
def mkOnceSpec (time : ℚ) (callback : Nat) (i : Nat) : EventSpec :=
  { type := some "once", time := some time, freq := none, endv := none,
    callback := some callback, scheduledAt := none, id := i }

/-- `berg.scheduler.once`. -/
def once (cb : CbSem) (time : ℚ) (callback : Nat) (i : Nat) (s : SchedulerState) :
    Except String (EventSpec × SchedulerState) :=
  scheduleEvent cb (mkOnceSpec time callback i) s

/-- The spec literal built by `berg.scheduler.repeat` (identity `i`);
absent arguments `time`/`end` are `none`. -/
def mkRepeatSpec (freq : Option ℚ) (callback : Nat) (time : Option ℚ)
    (endv : Option ℚ) (i : Nat) : EventSpec :=
  { type := some "repeat", time := time, freq := freq,
    endv := endv.map JsTime.num,
    callback := some callback, scheduledAt := none, id := i }

/-- `berg.scheduler.repeat`. -/
def repeatEvent (cb : CbSem) (freq : Option ℚ) (callback : Nat) (time : Option ℚ)
    (endv : Option ℚ) (i : Nat) (s : SchedulerState) :
    Except String (EventSpec × SchedulerState) :=
  scheduleEvent cb (mkRepeatSpec freq callback time endv i) s

/-- One iteration of `berg.scheduler.tick`'s drain loop, with explicit
fuel: while the minimum-priority item is due (`priority <= now`), pop it
and evaluate it.  The source's `while` loop corresponds to running with
enough fuel to reach quiescence (see `tickTerminates`). -/
def tickLoop (cb : CbSem) (fuel : Nat) (now timeScale : ℚ) (s : SchedulerState) :
    SchedulerState :=
  match fuel with
  | 0 => s
  | fuel' + 1 =>
    match s.queue.peek with
    | none => s
    | some next =>
      if next.priority ≤ now then
        tickLoop cb fuel' now timeScale
          (evaluateScoreEvent cb next now timeScale { s with queue := s.queue.pop })
      else
        s

/-- `berg.scheduler.tick(now)`: drains all due items.  The fuel
`s.queue.items.length` suffices whenever the loop terminates at all
(each iteration fires one due item and re-arms at most one non-due
item); see `tickLoop_drain` and `tickTerminates`. -/
def tick (cb : CbSem) (now : ℚ) (s : SchedulerState) : SchedulerState :=
  tickLoop cb s.queue.items.length now s.timeScale s

/-- The scheduler's `clear` invoker: `queue.remove(eventSpec)`. -/
def clear (eventSpec : EventSpec) (s : SchedulerState) : SchedulerState :=
  { s with queue := s.queue.remove eventSpec }

/-- The scheduler's `clearAll` invoker: `queue.clear()`. -/
def clearAll (s : SchedulerState) : SchedulerState :=
  { s with queue := s.queue.clear }

/-- `setTimeScale`: updates the `timeScale` model value; the model
listener synchronously runs `berg.scheduler.scaleEventTimes`. -/
def setTimeScale (value : ℚ) (s : SchedulerState) : SchedulerState :=
  { s with timeScale := value, queue := scaleEventTimes s.queue value }

/-- A sequence of clock ticks delivered to the scheduler. -/
def runTicks (cb : CbSem) (times : List ℚ) (s : SchedulerState) : SchedulerState :=
  times.foldl (fun st n => tick cb n st) s

/-- An item is due at `now` when its priority is at most `now`. -/
def isDue (now : ℚ) (e : EventSpec) : Bool :=
  decide (e.priority ≤ now)

/-- The re-arm test of `evaluateScoreEvent`. -/
def willRearm (now : ℚ) (e : EventSpec) : Bool :=
  e.type == some "repeat" && jsEndGt e.endv now

/-- The re-armed spec pushed back by `evaluateScoreEvent`. -/
def rearm (now timeScale : ℚ) (e : EventSpec) : EventSpec :=
  { e with priority := calcPriority now e.interval timeScale }

/-- Number of due items in a queue. -/
def dueCount (now : ℚ) (q : PQueue) : Nat :=
  (q.items.filter (isDue now)).length

/-- Every repeating item in the queue would be re-armed strictly into
the future: its interval scaled by the time scale is positive. -/
def goodRepeats (timeScale : ℚ) (q : PQueue) : Prop :=
  ∀ e ∈ q.items, e.type = some "repeat" → 0 < e.interval * timeScale

/-- The drain loop's exit condition: no queued item is due. -/
def quiescent (now : ℚ) (s : SchedulerState) : Prop :=
  ∀ e ∈ s.queue.items, now < e.priority

/-- The source's `while` loop in `berg.scheduler.tick` terminates on
state `s` exactly when some number of iterations reaches quiescence. -/
def tickTerminates (cb : CbSem) (now : ℚ) (s : SchedulerState) : Prop :=
  ∃ fuel, quiescent now (tickLoop cb fuel now s.timeScale s)

/-- Number of queued items with a given identity. -/
def idCount (i : Nat) (q : PQueue) : Nat :=
  (q.items.filter (fun e => e.id == i)).length

/-- The log entries recording invocations of the spec with identity `i`. -/
def logEntries (i : Nat) (l : List (Nat × ℚ)) : List (Nat × ℚ) :=
  l.filter (fun en => en.1 == i)

end scheduler

end berg

section SanityChecks

open berg berg.scheduler

example : calcPriority 1 2 3 = 7 := by norm_num [calcPriority]

attribute [local semireducible] Rat.add Rat.mul Rat.sub Rat.inv in
example :
    (scheduleEvent logCb (mkOnceSpec 2 5 0) ⟨⟨[]⟩, 1, 0, []⟩).toOption.map
      (fun p => p.2.queue.items.length) = some 1 := by decide

attribute [local semireducible] Rat.add Rat.mul Rat.sub Rat.inv in
example :
    (scheduleEvent logCb (mkOnceSpec 0 5 0) ⟨⟨[]⟩, 1, 0, []⟩).toOption.map
      (fun p => p.2.log) = some [(0, 0)] := by decide

end SanityChecks

namespace berg

theorem PQueue.peek_eq_none_iff {q : PQueue} : q.peek = none ↔ q.items = [] := by
  simp [PQueue.peek, List.argmin_eq_none]

theorem PQueue.peek_mem {q : PQueue} {m : EventSpec} (h : q.peek = some m) :
    m ∈ q.items :=
  List.argmin_mem (Option.mem_def.mpr h)

theorem PQueue.peek_min {q : PQueue} {m : EventSpec} (h : q.peek = some m) :
    ∀ a ∈ q.items, m.priority ≤ a.priority :=
  fun _ ha => List.le_of_mem_argmin ha (Option.mem_def.mpr h)

theorem PQueue.pop_items {q : PQueue} {m : EventSpec} (h : q.peek = some m) :
    q.pop.items = q.items.erase m := by
  simp [PQueue.pop, h]

theorem PQueue.push_items (q : PQueue) (e : EventSpec) :
    (q.push e).items = q.items ++ [e] := rfl

namespace scheduler

theorem isDue_iff {now : ℚ} {e : EventSpec} : isDue now e = true ↔ e.priority ≤ now := by
  simp [isDue]

theorem isDue_false_iff {now : ℚ} {e : EventSpec} :
    isDue now e = false ↔ now < e.priority := by
  simp [isDue]

theorem willRearm_type {now : ℚ} {e : EventSpec} (h : willRearm now e = true) :
    e.type = some "repeat" := by
  simpa [willRearm, Bool.and_eq_true, beq_iff_eq] using And.left (by simpa [willRearm, Bool.and_eq_true] using h)

theorem rearm_type (now ts : ℚ) (e : EventSpec) : (rearm now ts e).type = e.type := rfl

theorem rearm_interval (now ts : ℚ) (e : EventSpec) :
    (rearm now ts e).interval = e.interval := rfl

theorem rearm_id (now ts : ℚ) (e : EventSpec) : (rearm now ts e).id = e.id := rfl

theorem rearm_priority (now ts : ℚ) (e : EventSpec) :
    (rearm now ts e).priority = now + e.interval * ts := rfl

theorem rearm_not_due {now ts : ℚ} {e : EventSpec} (h : 0 < e.interval * ts) :
    isDue now (rearm now ts e) = false := by
  rw [isDue_false_iff, rearm_priority]
  linarith

/-- What one evaluation with the purely observational callback does. -/
theorem evaluateScoreEvent_logCb (e : EventSpec) (now ts : ℚ) (s : SchedulerState) :
    evaluateScoreEvent logCb e now ts s =
      { queue := ⟨s.queue.items ++ if willRearm now e then [rearm now ts e] else []⟩,
        timeScale := s.timeScale, time := s.time,
        log := s.log ++ [(e.id, now)] } := by
  by_cases h : (e.type == some "repeat" && jsEndGt e.endv now) = true
  · simp [evaluateScoreEvent, logCb, willRearm, rearm, PQueue.push, h]
  · simp [evaluateScoreEvent, logCb, willRearm, rearm, PQueue.push, h]

/-- The multiset of items left in the queue by a full drain at `now`:
the non-due items plus the re-arms of the due repeats still running. -/
def survivors (now ts : ℚ) (l : List EventSpec) : List EventSpec :=
  l.filter (fun e => !isDue now e)
    ++ (l.filter (fun e => isDue now e && willRearm now e)).map (rearm now ts)

/-- The log entries appended by a full drain at `now`, up to order. -/
def firedLog (now : ℚ) (l : List EventSpec) : List (Nat × ℚ) :=
  (l.filter (isDue now)).map (fun e => (e.id, now))

theorem survivors_of_no_due {now ts : ℚ} {l : List EventSpec}
    (h : ∀ e ∈ l, isDue now e = false) :
    survivors now ts l = l := by
  unfold survivors
  rw [List.filter_eq_self.mpr, List.filter_eq_nil_iff.mpr]
  · simp
  · intro e he
    simp [h e he]
  · intro e he
    simp [h e he]

theorem firedLog_of_no_due {now : ℚ} {l : List EventSpec}
    (h : ∀ e ∈ l, isDue now e = false) :
    firedLog now l = [] := by
  unfold firedLog
  rw [List.filter_eq_nil_iff.mpr]
  · rfl
  · intro e he
    simp [h e he]

end scheduler

end berg

namespace berg

namespace scheduler

theorem mem_of_mem_sub {l₁ l₂ : List EventSpec} {m e : EventSpec}
    (h : e ∈ l₁ ++ l₂) : e ∈ l₁ ++ m :: l₂ := by
  rcases List.mem_append.mp h with h1 | h2
  · exact List.mem_append.mpr (Or.inl h1)
  · exact List.mem_append.mpr (Or.inr (List.mem_cons_of_mem _ h2))

/-- Full characterization of the drain loop under the observational
callback: with one unit of fuel per due item, the loop fires each due
item exactly once (appending its id and `now` to the log), keeps every
non-due item untouched, re-arms exactly the due repeats whose end is
still in the future, and preserves the time scale and clock time. -/
theorem tickLoop_drain (fuel : Nat) (now ts : ℚ) (s : SchedulerState)
    (hg : goodRepeats ts s.queue) (hd : dueCount now s.queue ≤ fuel) :
    ∃ appended : List (Nat × ℚ),
      (tickLoop logCb fuel now ts s).log = s.log ++ appended ∧
      appended.Perm (firedLog now s.queue.items) ∧
      (tickLoop logCb fuel now ts s).queue.items.Perm (survivors now ts s.queue.items) ∧
      (tickLoop logCb fuel now ts s).timeScale = s.timeScale ∧
      (tickLoop logCb fuel now ts s).time = s.time := by
  induction fuel generalizing s with
  | zero =>
    have hnil : s.queue.items.filter (isDue now) = [] :=
      List.length_eq_zero.mp (Nat.le_zero.mp hd)
    have hnd : ∀ e ∈ s.queue.items, isDue now e = false := by
      intro e he
      simpa using List.filter_eq_nil_iff.mp hnil e he
    exact ⟨[], by simp [tickLoop], by rw [firedLog_of_no_due hnd],
      by rw [survivors_of_no_due hnd]; simp [tickLoop], rfl, rfl⟩
  | succ fuel ih =>
    cases hpeek : s.queue.peek with
    | none =>
      have hnil : s.queue.items = [] := PQueue.peek_eq_none_iff.mp hpeek
      have hnd : ∀ e ∈ s.queue.items, isDue now e = false := by
        rw [hnil]; intro e he; cases he
      exact ⟨[], by simp [tickLoop, hpeek], by rw [firedLog_of_no_due hnd],
        by rw [survivors_of_no_due hnd]; simp [tickLoop, hpeek], by simp [tickLoop, hpeek],
        by simp [tickLoop, hpeek]⟩
    | some m =>
      by_cases hle : m.priority ≤ now
      case neg =>
        have hnd : ∀ e ∈ s.queue.items, isDue now e = false := by
          intro e he
          rw [isDue_false_iff]
          calc now < m.priority := lt_of_not_le hle
            _ ≤ e.priority := PQueue.peek_min hpeek e he
        exact ⟨[], by simp [tickLoop, hpeek, hle], by rw [firedLog_of_no_due hnd],
          by rw [survivors_of_no_due hnd]; simp [tickLoop, hpeek, hle],
          by simp [tickLoop, hpeek, hle], by simp [tickLoop, hpeek, hle]⟩
      case pos =>
        have hmem : m ∈ s.queue.items := PQueue.peek_mem hpeek
        obtain ⟨l₁, l₂, -, hitems, herase⟩ := List.exists_erase_eq hmem
        have hmdue : isDue now m = true := isDue_iff.mpr hle
        set mayR : List EventSpec := if willRearm now m then [rearm now ts m] else []
          with hmayR
        have hmayR_nodue : ∀ x ∈ mayR, isDue now x = false := by
          intro x hx
          rw [hmayR] at hx
          by_cases hw : willRearm now m = true
          · rw [if_pos hw] at hx
            rw [List.mem_singleton.mp hx]
            exact rearm_not_due (hg m hmem (willRearm_type hw))
          · rw [if_neg (by simpa using hw)] at hx
            cases hx
        set s' := evaluateScoreEvent logCb m now ts { s with queue := s.queue.pop }
          with hs'
        have hpop : s.queue.pop.items = l₁ ++ l₂ := by
          rw [PQueue.pop_items hpeek, herase]
        have hs'items : s'.queue.items = (l₁ ++ l₂) ++ mayR := by
          rw [hs', evaluateScoreEvent_logCb, hmayR]
          simp [hpop]
        have hs'log : s'.log = s.log ++ [(m.id, now)] := by
          rw [hs', evaluateScoreEvent_logCb]
        have hs'ts : s'.timeScale = s.timeScale := by
          rw [hs', evaluateScoreEvent_logCb]
        have hs'time : s'.time = s.time := by
          rw [hs', evaluateScoreEvent_logCb]
        have hsub : ∀ e ∈ l₁ ++ l₂, e ∈ s.queue.items := by
          intro e he
          rw [hitems]
          exact mem_of_mem_sub he
        have hg' : goodRepeats ts s'.queue := by
          intro e he hrep
          rw [hs'items] at he
          rcases List.mem_append.mp he with h1 | h2
          · exact hg e (hsub e h1) hrep
          · rw [hmayR] at h2
            by_cases hw : willRearm now m = true
            · rw [if_pos hw] at h2
              rw [List.mem_singleton.mp h2]
              rw [rearm_interval]
              exact hg m hmem (willRearm_type hw)
            · rw [if_neg (by simpa using hw)] at h2
              cases h2
        have hmayR_filter_due : mayR.filter (isDue now) = [] :=
          List.filter_eq_nil_iff.mpr (fun a ha => by simp [hmayR_nodue a ha])
        have hcount : dueCount now s.queue
            = ((l₁ ++ l₂).filter (isDue now)).length + 1 := by
          unfold dueCount
          rw [hitems]
          simp [List.filter_append, hmdue, List.length_append]
          omega
        have hd' : dueCount now s'.queue ≤ fuel := by
          unfold dueCount
          rw [hs'items, List.filter_append, hmayR_filter_due, List.append_nil]
          rw [hcount] at hd
          omega
        obtain ⟨app', hlog', happ', hq', hts', htime'⟩ := ih s' hg' hd'
        have hstep : tickLoop logCb (fuel + 1) now ts s = tickLoop logCb fuel now ts s' := by
          rw [hs']
          simp [tickLoop, hpeek, hle]
        have hfired' : firedLog now s'.queue.items
            = firedLog now l₁ ++ firedLog now l₂ := by
          rw [hs'items]
          unfold firedLog
          rw [List.filter_append, List.filter_append, hmayR_filter_due, List.append_nil,
            List.map_append]
        have hfired : firedLog now s.queue.items
            = firedLog now l₁ ++ (m.id, now) :: firedLog now l₂ := by
          rw [hitems]
          unfold firedLog
          rw [List.filter_append, List.filter_cons, if_pos hmdue, List.map_append,
            List.map_cons]
        refine ⟨(m.id, now) :: app', ?_, ?_, ?_, ?_, ?_⟩
        · rw [hstep, hlog', hs'log, List.append_assoc, List.singleton_append]
        · rw [hfired]
          refine (List.Perm.cons _ ?_).trans List.perm_middle.symm
          rw [← hfired']
          exact happ'
        · rw [hstep]
          refine hq'.trans ?_
          rw [← Multiset.coe_eq_coe, hs'items, hitems, hmayR]
          by_cases hw : willRearm now m = true
          · have hrd : isDue now (rearm now ts m) = false :=
              rearm_not_due (hg m hmem (willRearm_type hw))
            simp only [if_pos hw, survivors, List.filter_append, List.filter_cons,
              List.filter_nil, List.map_append, List.map_cons, List.map_nil,
              hmdue, hw, hrd, Bool.not_true, Bool.not_false, Bool.false_and,
              Bool.true_and, Bool.and_self, if_true, if_false, List.append_nil,
              Bool.false_eq_true, Bool.and_true]
            simp only [← Multiset.coe_add, ← Multiset.cons_coe, ← Multiset.singleton_add]
            abel
          · simp only [if_neg hw, survivors, List.filter_append, List.filter_cons,
              List.filter_nil, List.map_append, List.map_cons, List.map_nil,
              hmdue, Bool.not_true, Bool.false_and, Bool.true_and, Bool.and_self,
              if_true, if_false, List.append_nil, Bool.false_eq_true,
              Bool.and_true, (Bool.eq_false_iff.mpr hw : willRearm now m = false)]
        · rw [hstep, hts', hs'ts]
        · rw [hstep, htime', hs'time]

end scheduler

end berg

namespace berg

namespace scheduler

theorem mem_survivors_elim {now ts : ℚ} {l : List EventSpec} {x : EventSpec}
    (hx : x ∈ survivors now ts l) :
    (x ∈ l ∧ isDue now x = false) ∨
      ∃ e ∈ l, isDue now e = true ∧ willRearm now e = true ∧ x = rearm now ts e := by
  unfold survivors at hx
  rcases List.mem_append.mp hx with h | h
  · have h' := List.mem_filter.mp h
    exact Or.inl ⟨h'.1, by simpa using h'.2⟩
  · obtain ⟨e, he, hxe⟩ := List.mem_map.mp h
    have h' := List.mem_filter.mp he
    have hand := h'.2
    rw [Bool.and_eq_true] at hand
    exact Or.inr ⟨e, h'.1, hand.1, hand.2, hxe.symm⟩

theorem mem_survivors_of_not_due {now ts : ℚ} {l : List EventSpec} {x : EventSpec}
    (hmem : x ∈ l) (hnd : isDue now x = false) : x ∈ survivors now ts l := by
  unfold survivors
  exact List.mem_append.mpr (Or.inl (List.mem_filter.mpr ⟨hmem, by simp [hnd]⟩))

theorem goodRepeats_of_survivors {now ts : ℚ} {l : List EventSpec}
    (hg : ∀ e ∈ l, e.type = some "repeat" → 0 < e.interval * ts) :
    ∀ x ∈ survivors now ts l, x.type = some "repeat" → 0 < x.interval * ts := by
  intro x hx hxt
  rcases mem_survivors_elim hx with ⟨hm, -⟩ | ⟨e, he, -, -, hxe⟩
  · exact hg x hm hxt
  · rw [hxe] at hxt ⊢
    rw [rearm_type] at hxt
    rw [rearm_interval]
    exact hg e he hxt

theorem survivors_not_due {now ts : ℚ} {l : List EventSpec}
    (hg : ∀ e ∈ l, e.type = some "repeat" → 0 < e.interval * ts) :
    ∀ x ∈ survivors now ts l, now < x.priority := by
  intro x hx
  rcases mem_survivors_elim hx with ⟨-, hnd⟩ | ⟨e, he, -, hw, hxe⟩
  · exact isDue_false_iff.mp hnd
  · rw [hxe]
    exact isDue_false_iff.mp (rearm_not_due (hg e he (willRearm_type hw)))

/-- The public `tick` carries enough fuel to drain every due item. -/
theorem tick_drain (now : ℚ) (s : SchedulerState) (hg : goodRepeats s.timeScale s.queue) :
    ∃ appended : List (Nat × ℚ),
      (tick logCb now s).log = s.log ++ appended ∧
      appended.Perm (firedLog now s.queue.items) ∧
      (tick logCb now s).queue.items.Perm (survivors now s.timeScale s.queue.items) ∧
      (tick logCb now s).timeScale = s.timeScale ∧
      (tick logCb now s).time = s.time :=
  tickLoop_drain s.queue.items.length now s.timeScale s hg (List.length_filter_le _ _)

/-- Observable behaviour of one `tick` with the observational callback
on a well-formed queue: time scale and clock time are untouched, the
queue stays well formed, the resulting state is quiescent at `now`, the
surviving items are exactly `survivors`, and per identity `i` the queue
census and the log grow exactly as the due items with that id dictate. -/
theorem tick_facts (now : ℚ) (s : SchedulerState) (hg : goodRepeats s.timeScale s.queue) :
    (tick logCb now s).timeScale = s.timeScale ∧
    (tick logCb now s).time = s.time ∧
    goodRepeats (tick logCb now s).timeScale (tick logCb now s).queue ∧
    quiescent now (tick logCb now s) ∧
    (∀ x : EventSpec,
      x ∈ (tick logCb now s).queue.items ↔ x ∈ survivors now s.timeScale s.queue.items) ∧
    ∀ i : Nat,
      idCount i (tick logCb now s).queue
        = s.queue.items.countP (fun x => (x.id == i) && !isDue now x)
          + s.queue.items.countP (fun x => (x.id == i) && (isDue now x && willRearm now x)) ∧
      logEntries i (tick logCb now s).log
        = logEntries i s.log
          ++ List.replicate (s.queue.items.countP (fun x => (x.id == i) && isDue now x)) (i, now) := by
  obtain ⟨app, hlog, happ, hq, hts, htime⟩ := tick_drain now s hg
  refine ⟨hts, htime, ?_, ?_, fun x => hq.mem_iff, ?_⟩
  · rw [hts]
    intro x hx
    exact goodRepeats_of_survivors hg x (hq.mem_iff.mp hx)
  · intro x hx
    exact survivors_not_due hg x (hq.mem_iff.mp hx)
  · intro i
    constructor
    · unfold idCount
      rw [← List.countP_eq_length_filter, hq.countP_eq]
      unfold survivors
      rw [List.countP_append, List.countP_filter, List.countP_map, List.countP_filter]
      rfl
    · unfold logEntries
      rw [hlog, List.filter_append]
      have hfr : (firedLog now s.queue.items).filter (fun en => en.1 == i)
          = List.replicate
              (s.queue.items.countP (fun x => (x.id == i) && isDue now x)) (i, now) := by
        unfold firedLog
        rw [List.filter_map]
        refine List.eq_replicate_iff.mpr ⟨?_, ?_⟩
        · rw [List.length_map, ← List.countP_eq_length_filter, List.countP_filter]
          rfl
        · intro b hb
          obtain ⟨e, he, hbe⟩ := List.mem_map.mp hb
          have hei := (List.mem_filter.mp he).2
          have : e.id = i := by
            have := of_decide_eq_true (by simpa [Function.comp] using hei)
            exact this
          rw [← hbe, this]
      congr 1
      exact List.perm_replicate.mp ((happ.filter _).trans (by rw [hfr]))
end scheduler

end berg

namespace berg

namespace scheduler

theorem filter_id_unique {l : List EventSpec} {i : Nat} {x y : EventSpec}
    (hu : (l.filter (fun z => z.id == i)).length = 1)
    (hx : x ∈ l) (hxi : x.id = i) (hy : y ∈ l) (hyi : y.id = i) : x = y := by
  obtain ⟨a, ha⟩ := List.length_eq_one.mp hu
  have hx' : x ∈ l.filter (fun z => z.id == i) := List.mem_filter.mpr ⟨hx, by simp [hxi]⟩
  have hy' : y ∈ l.filter (fun z => z.id == i) := List.mem_filter.mpr ⟨hy, by simp [hyi]⟩
  rw [ha, List.mem_singleton] at hx' hy'
  rw [hx', hy']

theorem countP_of_unique_id {l : List EventSpec} {i : Nat} {e : EventSpec}
    (hu : (l.filter (fun z => z.id == i)).length = 1)
    (he : e ∈ l) (hei : e.id = i) (q : EventSpec → Bool) :
    l.countP (fun x => (x.id == i) && q x) = if q e then 1 else 0 := by
  by_cases hqe : q e = true
  · rw [if_pos hqe]
    refine le_antisymm ?_ ?_
    · calc l.countP (fun x => (x.id == i) && q x)
          ≤ l.countP (fun z => z.id == i) :=
            List.countP_mono_left (fun x _ hpx => by
              rw [Bool.and_eq_true] at hpx; exact hpx.1)
        _ = 1 := by rw [List.countP_eq_length_filter]; exact hu
    · have : 0 < l.countP (fun x => (x.id == i) && q x) :=
        List.countP_pos_iff.mpr ⟨e, he, by simp [hei, hqe]⟩
      omega
  · rw [if_neg hqe]
    refine List.countP_eq_zero.mpr ?_
    intro x hx hpx
    rw [Bool.and_eq_true] at hpx
    have hxi : x.id = i := by simpa using hpx.1
    rw [filter_id_unique hu hx hxi he hei] at hpx
    exact hqe hpx.2

theorem countP_of_absent_id {l : List EventSpec} {i : Nat}
    (h0 : (l.filter (fun z => z.id == i)).length = 0) (q : EventSpec → Bool) :
    l.countP (fun x => (x.id == i) && q x) = 0 := by
  have hle : l.countP (fun x => (x.id == i) && q x) ≤ l.countP (fun z => z.id == i) :=
    List.countP_mono_left (fun x _ hpx => by
      rw [Bool.and_eq_true] at hpx; exact hpx.1)
  have h0' : l.countP (fun z => z.id == i) = 0 := by
    rw [List.countP_eq_length_filter]
    exact h0
  omega

theorem idCount_eq_countP (i : Nat) (q : PQueue) :
    idCount i q = q.items.countP (fun x => x.id == i) :=
  (List.countP_eq_length_filter _ _).symm

/-- A quiescent state is a fixed point of the drain loop, whatever the
fuel and whatever the callback semantics. -/
theorem tickLoop_of_quiescent (cb : CbSem) (fuel : Nat) (now ts : ℚ)
    (s : SchedulerState) (h : quiescent now s) : tickLoop cb fuel now ts s = s := by
  cases fuel with
  | zero => rfl
  | succ fuel =>
    cases hpeek : s.queue.peek with
    | none => simp [tickLoop, hpeek]
    | some m =>
      have hm : now < m.priority := h m (PQueue.peek_mem hpeek)
      simp [tickLoop, hpeek, not_le.mpr hm]

/-- Effect of one tick on a queue that holds no item with identity `i`:
nothing with that identity is fired or created. -/
theorem tick_absent_id (now : ℚ) (s : SchedulerState) (i : Nat)
    (hg : goodRepeats s.timeScale s.queue) (h0 : idCount i s.queue = 0) :
    (tick logCb now s).timeScale = s.timeScale ∧
    (tick logCb now s).time = s.time ∧
    goodRepeats (tick logCb now s).timeScale (tick logCb now s).queue ∧
    idCount i (tick logCb now s).queue = 0 ∧
    logEntries i (tick logCb now s).log = logEntries i s.log := by
  obtain ⟨hts, htime, hg', -, -, hi⟩ := tick_facts now s hg
  obtain ⟨hqc, hlc⟩ := hi i
  have h0' : (s.queue.items.filter (fun z => z.id == i)).length = 0 := h0
  refine ⟨hts, htime, hg', ?_, ?_⟩
  · rw [hqc, countP_of_absent_id h0', countP_of_absent_id h0']
  · rw [hlc]
    have : s.queue.items.countP (fun x => (x.id == i) && isDue now x) = 0 :=
      countP_of_absent_id h0' _
    rw [this]
    simp

/-- Effect of one tick on a uniquely-identified queued item `e`. -/
theorem tick_unique_id (now : ℚ) (s : SchedulerState) (e : EventSpec)
    (hg : goodRepeats s.timeScale s.queue) (he : e ∈ s.queue.items)
    (hu : idCount e.id s.queue = 1) :
    (tick logCb now s).timeScale = s.timeScale ∧
    (tick logCb now s).time = s.time ∧
    goodRepeats (tick logCb now s).timeScale (tick logCb now s).queue ∧
    idCount e.id (tick logCb now s).queue
      = (if !isDue now e then 1 else 0)
        + (if isDue now e && willRearm now e then 1 else 0) ∧
    logEntries e.id (tick logCb now s).log
      = logEntries e.id s.log ++ (if isDue now e then [(e.id, now)] else []) ∧
    (isDue now e = false → e ∈ (tick logCb now s).queue.items) := by
  obtain ⟨hts, htime, hg', -, hmem, hi⟩ := tick_facts now s hg
  obtain ⟨hqc, hlc⟩ := hi e.id
  have hu' : (s.queue.items.filter (fun z => z.id == e.id)).length = 1 := hu
  refine ⟨hts, htime, hg', ?_, ?_, ?_⟩
  · rw [hqc, countP_of_unique_id hu' he rfl, countP_of_unique_id hu' he rfl]
  · rw [hlc, countP_of_unique_id hu' he rfl]
    by_cases hdue : isDue now e = true
    · simp [hdue]
    · simp [Bool.eq_false_iff.mpr hdue]
  · intro hnd
    exact (hmem e).mpr (mem_survivors_of_not_due he hnd)

end scheduler

end berg

namespace berg

namespace scheduler

theorem runTicks_cons (cb : CbSem) (n : ℚ) (rest : List ℚ) (s : SchedulerState) :
    runTicks cb (n :: rest) s = runTicks cb rest (tick cb n s) := rfl

/-- Through any tick sequence, a well-formed queue holding no item with
identity `i` never produces a log entry for `i`, and never acquires an
item with that identity. -/
theorem runTicks_absent (times : List ℚ) :
    ∀ (s : SchedulerState) (i : Nat),
    goodRepeats s.timeScale s.queue → idCount i s.queue = 0 →
    logEntries i (runTicks logCb times s).log = logEntries i s.log ∧
    idCount i (runTicks logCb times s).queue = 0 ∧
    goodRepeats (runTicks logCb times s).timeScale (runTicks logCb times s).queue ∧
    (runTicks logCb times s).timeScale = s.timeScale := by
  induction times with
  | nil => exact fun s i hg h0 => ⟨rfl, h0, hg, rfl⟩
  | cons n rest ih =>
    intro s i hg h0
    obtain ⟨hts, -, hg', h0', hlog⟩ := tick_absent_id n s i hg h0
    obtain ⟨ihlog, ihq, ihg, ihts⟩ := ih (tick logCb n s) i hg' h0'
    exact ⟨by rw [runTicks_cons, ihlog, hlog], by rw [runTicks_cons]; exact ihq,
      by rw [runTicks_cons]; exact ihg, by rw [runTicks_cons, ihts, hts]⟩

/-- Through any tick sequence, a uniquely-identified non-repeating item
pending in a well-formed queue is fired exactly at the first tick whose
time has reached its priority, at no other tick, and it is gone from
the queue afterwards. -/
theorem runTicks_pending (times : List ℚ) :
    ∀ (s : SchedulerState) (e : EventSpec),
    goodRepeats s.timeScale s.queue →
    e ∈ s.queue.items →
    idCount e.id s.queue = 1 →
    (e.type == some "repeat") = false →
    logEntries e.id (runTicks logCb times s).log
      = logEntries e.id s.log
        ++ (match times.find? (fun n => isDue n e) with
            | some n => [(e.id, n)]
            | none => []) ∧
    idCount e.id (runTicks logCb times s).queue
      = (match times.find? (fun n => isDue n e) with
          | some _ => 0
          | none => 1) := by
  induction times with
  | nil =>
    intro s e _ _ hu _
    exact ⟨by simp [runTicks, List.find?], by simpa [runTicks, List.find?] using hu⟩
  | cons n rest ih =>
    intro s e hg he hu ht
    obtain ⟨hts, -, hg', hq', hlog, hsurv⟩ := tick_unique_id n s e hg he hu
    have hwr : willRearm n e = false := by simp [willRearm, ht]
    by_cases hdue : isDue n e = true
    · have hq0 : idCount e.id (tick logCb n s).queue = 0 := by
        rw [hq', hdue, hwr]
        simp
      obtain ⟨ihlog, ihq, -, -⟩ := runTicks_absent rest (tick logCb n s) e.id hg' hq0
      have hfind : List.find? (fun t => isDue t e) (n :: rest) = some n := by
        simp [List.find?_cons, hdue]
      constructor
      · rw [runTicks_cons, ihlog, hlog, hfind, hdue]
        simp
      · rw [runTicks_cons, hfind]
        exact ihq
    · have hdf : isDue n e = false := Bool.eq_false_iff.mpr hdue
      have hq1 : idCount e.id (tick logCb n s).queue = 1 := by
        rw [hq', hdf, hwr]
        simp
      have hfind : List.find? (fun t => isDue t e) (n :: rest)
          = List.find? (fun t => isDue t e) rest := by
        simp [List.find?_cons, hdf]
      obtain ⟨ihlog, ihq⟩ := ih (tick logCb n s) e hg' (hsurv hdf) hq1 ht
      constructor
      · rw [runTicks_cons, ihlog, hlog, hdf, hfind]
        simp
      · rw [runTicks_cons, ihq, hfind]

end scheduler

end berg

namespace berg

namespace scheduler

/-- Scheduling a fresh once-spec whose scaled offset is positive stamps
`scheduledAt`, prices it at `now + t * timeScale` and pushes it. -/
theorem scheduleEvent_once_future (t σ : ℚ) (c i : Nat) (s : SchedulerState)
    (hts : s.timeScale = σ) (hfut : 0 < t * σ) :
    scheduleEvent logCb (mkOnceSpec t c i) s
      = Except.ok
          (⟨some "once", some t, none, none, some c, some s.time, 0, s.time + t * σ, i⟩,
           { s with queue := s.queue.push ⟨some "once", some t, none, none,
               some c, some s.time, 0, s.time + t * σ, i⟩ }) := by
  subst hts
  have hnle : ¬ (s.time + t * s.timeScale ≤ s.time) := by linarith
  simp [scheduleEvent, mkOnceSpec, validateEventSpec, calcPriority, hnle, PQueue.push]

end scheduler

end berg

namespace berg

namespace scheduler

/-- C1: a Once spec scheduled with offset `t` at clock time `s0.time`,
with due time `s0.time + t * σ` strictly in the future, is fired exactly
once over any subsequent tick sequence — at the first `tick now` with
`now ≥ s0.time + t * σ`, at no earlier and no later tick — and once
fired it is never back in the queue. -/
theorem once_fires_exactly_once (t σ : ℚ) (c i : Nat) (s0 : SchedulerState)
    (times : List ℚ) (e : EventSpec) (s1 : SchedulerState)
    (hts : s0.timeScale = σ)
    (hg : goodRepeats σ s0.queue)
    (hfresh : idCount i s0.queue = 0)
    (hlog0 : logEntries i s0.log = [])
    (hfut : 0 < t * σ)
    (hsch : scheduleEvent logCb (mkOnceSpec t c i) s0 = Except.ok (e, s1)) :
    logEntries i (runTicks logCb times s1).log
      = (match times.find? (fun n => decide (s0.time + t * σ ≤ n)) with
          | some n => [(i, n)]
          | none => []) ∧
    idCount i (runTicks logCb times s1).queue
      = (match times.find? (fun n => decide (s0.time + t * σ ≤ n)) with
          | some _ => 0
          | none => 1) := by
  rw [scheduleEvent_once_future t σ c i s0 hts hfut, Except.ok.injEq, Prod.mk.injEq] at hsch
  obtain ⟨he, hs1⟩ := hsch
  subst he
  subst hs1
  set E : EventSpec :=
    ⟨some "once", some t, none, none, some c, some s0.time, 0, s0.time + t * σ, i⟩ with hE
  have hfilter0 : s0.queue.items.filter (fun z => z.id == i) = [] :=
    List.length_eq_zero.mp hfresh
  have hgS : goodRepeats ({ s0 with queue := s0.queue.push E } : SchedulerState).timeScale
      ({ s0 with queue := s0.queue.push E } : SchedulerState).queue := by
    intro x hx hrep
    rcases List.mem_append.mp hx with h1 | h2
    · rw [show ({ s0 with queue := s0.queue.push E } : SchedulerState).timeScale
          = σ from hts]
      exact hg x h1 hrep
    · rw [List.mem_singleton.mp h2] at hrep
      have hone : E.type = some "once" := rfl
      rw [hone] at hrep
      exact absurd hrep (by decide)
  have heS : E ∈ ({ s0 with queue := s0.queue.push E } : SchedulerState).queue.items :=
    List.mem_append.mpr (Or.inr (List.mem_singleton_self E))
  have huS : idCount E.id ({ s0 with queue := s0.queue.push E } : SchedulerState).queue = 1 := by
    unfold idCount
    rw [PQueue.push_items, List.filter_append, hfilter0]
    simp
  have htS : (E.type == some "repeat") = false := by
    have hone : E.type = some "once" := rfl
    rw [hone]
    decide
  obtain ⟨hl, hqc⟩ :=
    runTicks_pending times { s0 with queue := s0.queue.push E } E hgS heS huS htS
  have hpred : (fun n => isDue n E) = (fun n => decide (s0.time + t * σ ≤ n)) := rfl
  constructor
  · rw [hl, hpred]
    have : logEntries E.id ({ s0 with queue := s0.queue.push E } : SchedulerState).log
        = [] := hlog0
    rw [this, List.nil_append]
  · rw [hqc, hpred]

end scheduler

end berg

namespace berg

namespace scheduler

attribute [local semireducible] Rat.add Rat.mul Rat.sub Rat.inv in
theorem once_fires_exactly_once_witness :
    logEntries 0 (runTicks logCb [1, 2, 3]
        ({ queue := ⟨[⟨some "once", some 2, none, none, some 5, some 0, 0, 2, 0⟩]⟩,
           timeScale := 1, time := 0, log := [] } : SchedulerState)).log = [(0, 2)] ∧
    idCount 0 (runTicks logCb [1, 2, 3]
        ({ queue := ⟨[⟨some "once", some 2, none, none, some 5, some 0, 0, 2, 0⟩]⟩,
           timeScale := 1, time := 0, log := [] } : SchedulerState)).queue = 0 := by
  have h := once_fires_exactly_once 2 1 5 0 ⟨⟨[]⟩, 1, 0, []⟩ [1, 2, 3]
    ⟨some "once", some 2, none, none, some 5, some 0, 0, 2, 0⟩
    ({ queue := ⟨[⟨some "once", some 2, none, none, some 5, some 0, 0, 2, 0⟩]⟩,
       timeScale := 1, time := 0, log := [] } : SchedulerState)
    rfl (by intro e he; cases he) (by decide) rfl (by decide) rfl
  exact ⟨h.1.trans (by decide), h.2.trans (by decide)⟩

end scheduler

end berg

namespace berg

namespace scheduler

theorem filter_eraseP_nil {l : List EventSpec} {p : EventSpec → Bool}
    (h : (l.filter p).length ≤ 1) : (l.eraseP p).filter p = [] := by
  induction l with
  | nil => rfl
  | cons a t ih =>
    by_cases hpa : p a = true
    · rw [List.eraseP_cons_of_pos hpa]
      rw [List.filter_cons, if_pos hpa, List.length_cons] at h
      refine List.filter_eq_nil_iff.mpr ?_
      intro x hx hpx
      have : (t.filter p).length = 0 := by omega
      exact (List.filter_eq_nil_iff.mp (List.length_eq_zero.mp this)) x hx hpx
    · rw [List.eraseP_cons_of_neg (by simpa using hpa), List.filter_cons, if_neg hpa]
      rw [List.filter_cons, if_neg hpa] at h
      exact ih h

/-- C6: `setTimeScale v` synchronously rewrites every queued item's
priority to `scheduledAt + time * v`, invokes no callback, removes no
item, and applying it a second time changes nothing at all. -/
theorem setTimeScale_spec (v : ℚ) (s : SchedulerState) :
    (setTimeScale v s).queue.items
      = s.queue.items.map
          (fun e => { e with priority := e.scheduledAt.getD 0 + e.time.getD 0 * v }) ∧
    (setTimeScale v s).log = s.log ∧
    (setTimeScale v s).time = s.time ∧
    (setTimeScale v s).timeScale = v ∧
    setTimeScale v (setTimeScale v s) = setTimeScale v s := by
  refine ⟨rfl, rfl, rfl, rfl, ?_⟩
  unfold setTimeScale scaleEventTimes
  congr 2
  rw [List.map_map]
  exact List.map_congr_left (fun e _ => rfl)

/-- C7: calling `tick` twice in succession at the same `now`, with no
intervening operation, leaves the state of the first call untouched: the
second call fires no callback at all. -/
theorem tick_idempotent (now : ℚ) (s : SchedulerState)
    (hg : goodRepeats s.timeScale s.queue) :
    tick logCb now (tick logCb now s) = tick logCb now s := by
  obtain ⟨-, -, -, hq, -, -⟩ := tick_facts now s hg
  exact tickLoop_of_quiescent logCb _ now _ _ hq

attribute [local semireducible] Rat.add Rat.mul Rat.sub Rat.inv in
theorem tick_idempotent_witness :
    tick logCb 1 (tick logCb 1
        ({ queue := ⟨[⟨some "once", some 1, none, none, some 4, some 0, 0, 1, 7⟩]⟩,
           timeScale := 1, time := 0, log := [] } : SchedulerState))
      = tick logCb 1
          ({ queue := ⟨[⟨some "once", some 1, none, none, some 4, some 0, 0, 1, 7⟩]⟩,
             timeScale := 1, time := 0, log := [] } : SchedulerState) :=
  tick_idempotent 1 _ (by
    intro e he hrep
    rw [List.mem_singleton.mp he] at hrep
    exact absurd hrep (by decide))

/-- C8: clearing a spec whose identity occurs at most once removes it
for good — no later tick ever fires it — and clearing a spec that is
not in the queue is a silent no-op returning the state unchanged. -/
theorem clear_spec (e : EventSpec) (s : SchedulerState) (times : List ℚ)
    (hg : goodRepeats s.timeScale s.queue)
    (hu : idCount e.id s.queue ≤ 1) :
    idCount e.id (clear e s).queue = 0 ∧
    logEntries e.id (runTicks logCb times (clear e s)).log
      = logEntries e.id (clear e s).log ∧
    (idCount e.id s.queue = 0 → clear e s = s) := by
  have hz : idCount e.id (clear e s).queue = 0 := by
    unfold idCount clear PQueue.remove
    rw [List.length_eq_zero]
    exact filter_eraseP_nil hu
  have hg' : goodRepeats (clear e s).timeScale (clear e s).queue := by
    intro x hx hrep
    exact hg x (List.mem_of_mem_eraseP hx) hrep
  refine ⟨hz, (runTicks_absent times (clear e s) e.id hg' hz).1, ?_⟩
  intro h0
  have hnone : s.queue.items.eraseP (fun x => x.id == e.id) = s.queue.items := by
    refine List.eraseP_of_forall_not ?_
    intro a ha
    have := List.filter_eq_nil_iff.mp (List.length_eq_zero.mp h0) a ha
    simpa using this
  unfold clear PQueue.remove
  rw [hnone]

/-- A concrete once-spec and state exercising `clear_spec`. -/
def c8spec : EventSpec :=
  ⟨some "once", some 2, none, none, some 4, some 0, 0, 2, 3⟩

def c8state : SchedulerState :=
  ⟨⟨[c8spec]⟩, 1, 0, []⟩

attribute [local semireducible] Rat.add Rat.mul Rat.sub Rat.inv in
theorem clear_spec_witness :
    idCount c8spec.id (clear c8spec c8state).queue = 0 ∧
    logEntries c8spec.id (runTicks logCb [2, 3] (clear c8spec c8state)).log
      = logEntries c8spec.id (clear c8spec c8state).log ∧
    (idCount c8spec.id c8state.queue = 0 → clear c8spec c8state = c8state) :=
  clear_spec c8spec c8state [2, 3]
    (by
      intro x hx hrep
      rw [List.mem_singleton.mp hx] at hrep
      exact absurd hrep (by decide))
    (by decide)

end scheduler

end berg

namespace berg

namespace scheduler

/-- C3: after a Repeat spec's callback fires at `now`, the spec is
reinserted exactly when `now` is still strictly below its absolute end
(`end > now` in the source), with new priority `now + interval * ts`
computed from the `ts` in effect at the moment of firing; when it is
not reinserted and no copy of it is queued, no later tick fires it. -/
theorem repeat_rearm_spec (e : EventSpec) (now ts : ℚ) (s : SchedulerState)
    (hrep : e.type = some "repeat") :
    ((evaluateScoreEvent logCb e now ts s).queue.items
       = if jsEndGt e.endv now then s.queue.items ++ [rearm now ts e]
         else s.queue.items) ∧
    (rearm now ts e).priority = now + e.interval * ts ∧
    (evaluateScoreEvent logCb e now ts s).log = s.log ++ [(e.id, now)] ∧
    (jsEndGt e.endv now = false → ∀ times : List ℚ,
      goodRepeats s.timeScale s.queue → idCount e.id s.queue = 0 →
      logEntries e.id (runTicks logCb times (evaluateScoreEvent logCb e now ts s)).log
        = logEntries e.id (evaluateScoreEvent logCb e now ts s).log) := by
  have heval := evaluateScoreEvent_logCb e now ts s
  have hwr : willRearm now e = jsEndGt e.endv now := by
    simp [willRearm, hrep]
  refine ⟨?_, rfl, ?_, ?_⟩
  · rw [heval]
    by_cases hend : jsEndGt e.endv now = true
    · simp [hwr, hend]
    · simp [hwr, Bool.eq_false_iff.mpr hend]
  · rw [heval]
  · intro hend times hg h0
    have hq : (evaluateScoreEvent logCb e now ts s).queue = s.queue := by
      rw [heval]
      simp [hwr, hend]
    have hts : (evaluateScoreEvent logCb e now ts s).timeScale = s.timeScale := by
      rw [heval]
    refine (runTicks_absent times _ e.id ?_ ?_).1
    · rw [hts, hq]
      exact hg
    · unfold idCount
      rw [hq]
      exact h0

/-- A concrete repeat spec past its end, for `repeat_rearm_spec`. -/
def c3spec : EventSpec :=
  ⟨some "repeat", some 0, some 1, some (JsTime.num 1), some 2, some 0, 1, 0, 9⟩

def c3state : SchedulerState :=
  ⟨⟨[]⟩, 1, 0, []⟩

attribute [local semireducible] Rat.add Rat.mul Rat.sub Rat.inv in
theorem repeat_rearm_spec_witness :
    (evaluateScoreEvent logCb c3spec 2 1 c3state).queue.items = c3state.queue.items ∧
    logEntries c3spec.id (runTicks logCb [3] (evaluateScoreEvent logCb c3spec 2 1 c3state)).log
      = logEntries c3spec.id (evaluateScoreEvent logCb c3spec 2 1 c3state).log := by
  have h := repeat_rearm_spec c3spec 2 1 c3state rfl
  refine ⟨h.1.trans (by decide), ?_⟩
  refine h.2.2.2 (by decide) [3] ?_ (by decide)
  intro x hx
  simp [c3state] at hx

end scheduler

end berg

namespace berg

namespace scheduler

theorem expandRepeatingEventSpec_fields (now : ℚ) (e : EventSpec) :
    (expandRepeatingEventSpec now e).callback = e.callback ∧
    (expandRepeatingEventSpec now e).type = e.type ∧
    (expandRepeatingEventSpec now e).freq = e.freq ∧
    (expandRepeatingEventSpec now e).time.isSome = true ∧
    (expandRepeatingEventSpec now e).scheduledAt = e.scheduledAt ∧
    (expandRepeatingEventSpec now e).id = e.id := by
  unfold expandRepeatingEventSpec
  by_cases h : e.time.isSome <;> simp [h]

theorem validateEventSpec_repeat {e : EventSpec} (hrep : e.type = some "repeat")
    (hcb : e.callback.isSome = true) (htime : e.time.isSome = true) :
    validateEventSpec e
      = if e.freq.isNone then some "No freq was specified for scheduled event"
        else none := by
  obtain ⟨c, hc⟩ := Option.isSome_iff_exists.mp hcb
  obtain ⟨tm, htm⟩ := Option.isSome_iff_exists.mp htime
  unfold validateEventSpec
  rw [hc, htm, hrep]
  simp

/-- C5 amended: for a Repeat spec with a valid callback, `schedule`
raises an error iff `freq` is not a number at all; a numeric `freq`,
zero or negative included, passes validation and is scheduled. -/
theorem repeat_freq_validation (e : EventSpec) (s : SchedulerState)
    (hrep : e.type = some "repeat") (hcb : e.callback.isSome = true) :
    (∃ msg, scheduleEvent logCb e s = Except.error msg) ↔ e.freq = none := by
  obtain ⟨hcb', hty', hfr', htm', hsa', hid'⟩ := expandRepeatingEventSpec_fields s.time e
  have h1 : (if e.type.isNone then { e with type := some "once" } else e) = e :=
    if_neg (by simp [hrep])
  have h2 : (e.type == some "repeat") = true := by rw [hrep]; rfl
  have hty3 : e.type = some "repeat" := hrep
  simp only [scheduleEvent, h1, h2, if_true]
  set E2 := expandRepeatingEventSpec s.time e with hE2
  set E3 := (if E2.scheduledAt.isSome then E2 else { E2 with scheduledAt := some s.time })
    with hE3
  have hcb3 : E3.callback.isSome = true := by
    rw [hE3]
    split <;> simp [hcb', hcb]
  have htm3 : E3.time.isSome = true := by
    rw [hE3]
    split <;> simp [htm']
  have hty3' : E3.type = some "repeat" := by
    rw [hE3]
    split <;> simp [hty', hrep]
  have hfr3 : E3.freq = e.freq := by
    rw [hE3]
    split <;> simp [hfr']
  rw [validateEventSpec_repeat hty3' hcb3 htm3, hfr3]
  rcases hf : e.freq with _ | f
  · simp
  · simp only [Option.isNone_none, Option.isNone_some, if_false, Bool.false_eq_true]
    constructor
    · rintro ⟨msg, hmsg⟩
      split at hmsg <;> cases hmsg
    · intro h
      cases h

end scheduler

end berg

namespace berg

namespace scheduler

/-- A Repeat spec with a negative numeric frequency. -/
def c5spec : EventSpec :=
  ⟨some "repeat", some 1, some (-1), none, some 0, none, 0, 0, 4⟩

def c5state : SchedulerState :=
  ⟨⟨[]⟩, 1, 0, []⟩

attribute [local semireducible] Rat.add Rat.mul Rat.sub Rat.inv in
/-- C5 counterexample: a Repeat spec with `freq = -1` — not a positive
number — is accepted by validation, raises no error, and is enqueued:
scheduling does not fail. -/
theorem repeat_negative_freq_schedules :
    scheduleEvent logCb c5spec c5state
      = Except.ok
          (⟨some "repeat", some 1, some (-1), some JsTime.inf, some 0, some 0, -1, 1, 4⟩,
           ⟨⟨[⟨some "repeat", some 1, some (-1), some JsTime.inf, some 0, some 0, -1, 1, 4⟩]⟩,
            1, 0, []⟩) ∧
    validateEventSpec
        ⟨some "repeat", some 1, some (-1), some JsTime.inf, some 0, some 0, -1, 1, 4⟩
      = none :=
  ⟨rfl, rfl⟩

theorem repeat_freq_validation_witness :
    ((∃ msg, scheduleEvent logCb c5spec c5state = Except.error msg) ↔ c5spec.freq = none) :=
  repeat_freq_validation c5spec c5state rfl rfl

end scheduler

end berg

namespace berg

namespace scheduler

/-- C2 amended: a successfully scheduled spec is priced at
`now + time * timeScale` where `now` is the clock time at submission
(equal to `scheduledAt + time * timeScale` whenever `scheduledAt` was
freshly stamped).  If that priority is already due, the callback runs
synchronously inside the call and the spec is not queued with that
priority — though an immediately-due Repeat whose end is in the future
is re-armed and pushed with its next-occurrence priority.  Otherwise
the spec is pushed with that priority and no callback runs.  The
mutated spec is returned. -/
theorem scheduleEvent_spec (e0 : EventSpec) (s : SchedulerState)
    (e : EventSpec) (s' : SchedulerState)
    (h : scheduleEvent logCb e0 s = Except.ok (e, s')) :
    e.priority = s.time + e.time.getD 0 * s.timeScale ∧
    (e0.scheduledAt = none →
      e.scheduledAt = some s.time ∧
      e.priority = e.scheduledAt.getD 0 + e.time.getD 0 * s.timeScale) ∧
    (e.priority ≤ s.time →
      s'.log = s.log ++ [(e.id, s.time)] ∧
      (willRearm s.time e = false → s'.queue = s.queue) ∧
      (willRearm s.time e = true →
        s'.queue.items = s.queue.items ++ [rearm s.time s.timeScale e])) ∧
    (¬ e.priority ≤ s.time →
      s'.queue.items = s.queue.items ++ [e] ∧ s'.log = s.log) := by
  simp only [scheduleEvent] at h
  set e1 := (if e0.type.isNone then { e0 with type := some "once" } else e0) with he1
  set e2 := (if e1.type == some "repeat" then expandRepeatingEventSpec s.time e1 else e1)
    with he2
  set e3 := (if e2.scheduledAt.isSome then e2 else { e2 with scheduledAt := some s.time })
    with he3
  have hsa2 : e2.scheduledAt = e0.scheduledAt := by
    rw [he2]
    split
    · exact (expandRepeatingEventSpec_fields s.time e1).2.2.2.2.1.trans
        (by rw [he1]; split <;> rfl)
    · rw [he1]
      split <;> rfl
  have hsa3 : e0.scheduledAt = none → e3.scheduledAt = some s.time := by
    intro h0
    rw [he3]
    split
    case isTrue hs =>
      rw [hsa2, h0] at hs
      cases hs
    case isFalse hs => rfl
  rcases hval : validateEventSpec e3 with _ | msg
  · rw [hval] at h
    set e4 := { e3 with priority := calcPriority s.time (e3.time.getD 0) s.timeScale }
      with he4
    have he4time : e4.time = e3.time := rfl
    have he4sa : e4.scheduledAt = e3.scheduledAt := rfl
    have he4p : e4.priority = s.time + e3.time.getD 0 * s.timeScale := rfl
    by_cases hdue : e4.priority ≤ s.time
    · rw [if_pos hdue, Except.ok.injEq, Prod.mk.injEq] at h
      obtain ⟨hee, hss⟩ := h
      subst hee
      subst hss
      have heval := evaluateScoreEvent_logCb e4 s.time s.timeScale s
      refine ⟨he4p, ?_, ?_, ?_⟩
      · intro h0
        refine ⟨(he4sa.trans (hsa3 h0)), ?_⟩
        rw [he4p, he4sa, hsa3 h0]
        rfl
      · intro _
        refine ⟨by rw [heval], ?_, ?_⟩
        · intro hwf
          rw [heval]
          simp [hwf]
        · intro hwt
          rw [heval]
          simp [hwt, rearm]
      · intro hnd
        exact absurd hdue hnd
    · rw [if_neg hdue, Except.ok.injEq, Prod.mk.injEq] at h
      obtain ⟨hee, hss⟩ := h
      subst hee
      subst hss
      refine ⟨he4p, ?_, fun hd => absurd hd hdue, fun _ => ⟨rfl, rfl⟩⟩
      intro h0
      refine ⟨(he4sa.trans (hsa3 h0)), ?_⟩
      rw [he4p, he4sa, hsa3 h0]
      rfl
  · rw [hval] at h
    cases h

end scheduler

end berg

namespace berg

namespace scheduler

/-- An immediately-due Repeat spec with its end in the future. -/
def c2spec : EventSpec :=
  ⟨some "repeat", some 0, some 1, none, some 6, none, 0, 0, 2⟩

def c2state : SchedulerState :=
  ⟨⟨[]⟩, 1, 0, []⟩

attribute [local semireducible] Rat.add Rat.mul Rat.sub Rat.inv in
/-- C2 counterexample: an already-due Repeat submission fires its
callback synchronously inside the call, and the spec IS pushed to the
queue (re-armed at its next occurrence), contradicting the claim that
an immediately evaluated spec is not pushed. -/
theorem immediate_repeat_is_pushed :
    scheduleEvent logCb c2spec c2state
      = Except.ok
          (⟨some "repeat", some 0, some 1, some JsTime.inf, some 6, some 0, 1, 0, 2⟩,
           ⟨⟨[⟨some "repeat", some 0, some 1, some JsTime.inf, some 6, some 0, 1, 1, 2⟩]⟩,
            1, 0, [(2, 0)]⟩) :=
  rfl

attribute [local semireducible] Rat.add Rat.mul Rat.sub Rat.inv in
theorem scheduleEvent_spec_witness :
    (⟨some "once", some 2, none, none, some 5, some 0, 0, 2, 0⟩ : EventSpec).priority
        = c2state.time
          + (⟨some "once", some 2, none, none, some 5, some 0, 0, 2, 0⟩ : EventSpec).time.getD 0
            * c2state.timeScale ∧
    ((mkOnceSpec 2 5 0).scheduledAt = none →
      (⟨some "once", some 2, none, none, some 5, some 0, 0, 2, 0⟩ : EventSpec).scheduledAt
          = some c2state.time ∧
      (⟨some "once", some 2, none, none, some 5, some 0, 0, 2, 0⟩ : EventSpec).priority
        = (⟨some "once", some 2, none, none, some 5, some 0, 0, 2, 0⟩ : EventSpec).scheduledAt.getD 0
          + (⟨some "once", some 2, none, none, some 5, some 0, 0, 2, 0⟩ : EventSpec).time.getD 0
            * c2state.timeScale) ∧
    ((⟨some "once", some 2, none, none, some 5, some 0, 0, 2, 0⟩ : EventSpec).priority
        ≤ c2state.time →
      (⟨⟨[⟨some "once", some 2, none, none, some 5, some 0, 0, 2, 0⟩]⟩, 1, 0, []⟩
          : SchedulerState).log
        = c2state.log
          ++ [((⟨some "once", some 2, none, none, some 5, some 0, 0, 2, 0⟩ : EventSpec).id,
               c2state.time)] ∧
      (willRearm c2state.time ⟨some "once", some 2, none, none, some 5, some 0, 0, 2, 0⟩ = false →
        (⟨⟨[⟨some "once", some 2, none, none, some 5, some 0, 0, 2, 0⟩]⟩, 1, 0, []⟩
            : SchedulerState).queue = c2state.queue) ∧
      (willRearm c2state.time ⟨some "once", some 2, none, none, some 5, some 0, 0, 2, 0⟩ = true →
        (⟨⟨[⟨some "once", some 2, none, none, some 5, some 0, 0, 2, 0⟩]⟩, 1, 0, []⟩
            : SchedulerState).queue.items
          = c2state.queue.items
            ++ [rearm c2state.time c2state.timeScale
                ⟨some "once", some 2, none, none, some 5, some 0, 0, 2, 0⟩])) ∧
    (¬ (⟨some "once", some 2, none, none, some 5, some 0, 0, 2, 0⟩ : EventSpec).priority
        ≤ c2state.time →
      (⟨⟨[⟨some "once", some 2, none, none, some 5, some 0, 0, 2, 0⟩]⟩, 1, 0, []⟩
          : SchedulerState).queue.items
        = c2state.queue.items ++ [⟨some "once", some 2, none, none, some 5, some 0, 0, 2, 0⟩] ∧
      (⟨⟨[⟨some "once", some 2, none, none, some 5, some 0, 0, 2, 0⟩]⟩, 1, 0, []⟩
          : SchedulerState).log = c2state.log) :=
  scheduleEvent_spec (mkOnceSpec 2 5 0) c2state
    ⟨some "once", some 2, none, none, some 5, some 0, 0, 2, 0⟩
    ⟨⟨[⟨some "once", some 2, none, none, some 5, some 0, 0, 2, 0⟩]⟩, 1, 0, []⟩
    rfl

end scheduler

end berg

namespace berg

namespace scheduler

/-- The re-armed form, at priority `p`, of a repeat spec with negative
frequency (interval `-1`) and no end. -/
def badRepeatSpec (p : ℚ) : EventSpec :=
  ⟨some "repeat", some 0, some (-1), some JsTime.inf, some 0, some 0, -1, p, 0⟩

theorem badRepeat_loop (fuel : Nat) :
    ∀ (p tm : ℚ) (lg : List (Nat × ℚ)), p ≤ 0 →
    ¬ quiescent 0 (tickLoop logCb fuel 0 1 ⟨⟨[badRepeatSpec p]⟩, 1, tm, lg⟩) := by
  induction fuel with
  | zero =>
    intro p tm lg hp hq
    have h := hq (badRepeatSpec p) (List.mem_singleton_self _)
    have : (badRepeatSpec p).priority = p := rfl
    rw [this] at h
    linarith
  | succ fuel ih =>
    intro p tm lg hp hq
    have hpeek : (⟨[badRepeatSpec p]⟩ : PQueue).peek = some (badRepeatSpec p) := by
      simp [PQueue.peek]
    have hple : (badRepeatSpec p).priority ≤ (0 : ℚ) := hp
    have hstep : tickLoop logCb (fuel + 1) 0 1 ⟨⟨[badRepeatSpec p]⟩, 1, tm, lg⟩
        = tickLoop logCb fuel 0 1
            (evaluateScoreEvent logCb (badRepeatSpec p) 0 1
              { queue := PQueue.pop ⟨[badRepeatSpec p]⟩, timeScale := 1,
                time := tm, log := lg }) := by
      simp [tickLoop, hpeek, hple]
    have heval : evaluateScoreEvent logCb (badRepeatSpec p) 0 1
          { queue := PQueue.pop ⟨[badRepeatSpec p]⟩, timeScale := 1, time := tm, log := lg }
        = ⟨⟨[badRepeatSpec (-1)]⟩, 1, tm, lg ++ [(0, 0)]⟩ := by
      rw [evaluateScoreEvent_logCb]
      have hw : willRearm 0 (badRepeatSpec p) = true := rfl
      have hq1 : ((⟨PQueue.pop ⟨[badRepeatSpec p]⟩, 1, tm, lg⟩ :
          SchedulerState)).queue.items = [] := by
        show (PQueue.pop ⟨[badRepeatSpec p]⟩).items = []
        rw [PQueue.pop_items hpeek]
        simp
      rw [hq1, hw, if_pos rfl, List.nil_append]
      have hr : rearm 0 1 (badRepeatSpec p) = badRepeatSpec (-1) := by
        simp [rearm, calcPriority, badRepeatSpec]
      rw [hr]
      rfl
    rw [hstep, heval] at hq
    exact ih (-1) tm (lg ++ [(0, 0)]) (by norm_num) hq

/-- A Repeat spec with negative frequency, as the user would submit it. -/
def c9spec : EventSpec :=
  ⟨some "repeat", some 0, some (-1), none, some 0, none, 0, 0, 0⟩

attribute [local semireducible] Rat.add Rat.mul Rat.sub Rat.inv in
/-- C9 counterexample: scheduling a Repeat spec with `freq = -1` (a
state reachable through the public API) leaves the queue holding an
always-due repeat; the drain loop of `tick 0` then never reaches its
exit condition, however many iterations it is given — `tick` does not
return. -/
theorem tick_nontermination :
    scheduleEvent logCb c9spec ⟨⟨[]⟩, 1, 0, []⟩
      = Except.ok (badRepeatSpec 0, ⟨⟨[badRepeatSpec (-1)]⟩, 1, 0, [(0, 0)]⟩) ∧
    ¬ tickTerminates logCb 0 ⟨⟨[badRepeatSpec (-1)]⟩, 1, 0, [(0, 0)]⟩ := by
  refine ⟨by rfl, ?_⟩
  rintro ⟨fuel, hq⟩
  exact badRepeat_loop fuel (-1) 0 [(0, 0)] (by norm_num) hq

/-- C9 amended: `tick`'s drain loop does terminate on every queue whose
Repeat items all satisfy `interval * timeScale > 0` — in particular for
`freq_hz > 0` under a positive time scale; no other scheduler operation
loops at all. -/
theorem tick_terminates_of_goodRepeats (now : ℚ) (s : SchedulerState)
    (hg : goodRepeats s.timeScale s.queue) : tickTerminates logCb now s := by
  obtain ⟨-, -, -, hq, -, -⟩ := tick_facts now s hg
  exact ⟨s.queue.items.length, hq⟩

attribute [local semireducible] Rat.add Rat.mul Rat.sub Rat.inv in
theorem tick_terminates_witness :
    tickTerminates logCb 0 ⟨⟨[⟨some "repeat", some 0, some 1, some JsTime.inf,
        some 0, some 0, 1, 0, 0⟩]⟩, 1, 0, []⟩ :=
  tick_terminates_of_goodRepeats 0 _ (by
    intro x hx hrep
    rw [List.mem_singleton.mp hx]
    decide)

end scheduler

end berg

namespace berg

namespace scheduler

/-- A callback body that, reentrantly, calls `clear` on the very spec
being evaluated (and is logged like any invocation). -/
def clearSelfCb : CbSem :=
  fun now e s => clear e (logCb now e s)

/-- One tick on a single due item whose callback clears itself: the
callback still runs. -/
theorem tick_singleton_clearSelf (now' ts' tm : ℚ) (r : EventSpec)
    (lg : List (Nat × ℚ)) (hdue : r.priority ≤ now') :
    (tick clearSelfCb now' ⟨⟨[r]⟩, ts', tm, lg⟩).log = lg ++ [(r.id, now')] := by
  have hpeek : (⟨[r]⟩ : PQueue).peek = some r := by
    simp [PQueue.peek]
  show (tickLoop clearSelfCb 1 now' ts' ⟨⟨[r]⟩, ts', tm, lg⟩).log = lg ++ [(r.id, now')]
  simp only [tickLoop, hpeek, hdue, if_pos]
  unfold evaluateScoreEvent clearSelfCb logCb clear
  split <;> rfl

/-- C10: a Repeat spec whose callback clears the spec itself during its
own evaluation, before its end has passed, is reinserted into the queue
anyway — the spec is not in the queue while its callback runs, so the
`clear` removes nothing — and it fires again at a later tick. -/
theorem clear_self_in_callback_ineffective (e : EventSpec) (now ts : ℚ)
    (s : SchedulerState)
    (hrep : e.type = some "repeat")
    (hend : jsEndGt e.endv now = true)
    (habs : idCount e.id s.queue = 0) :
    (evaluateScoreEvent clearSelfCb e now ts s).queue.items
        = s.queue.items ++ [rearm now ts e] ∧
    (evaluateScoreEvent clearSelfCb e now ts s).log = s.log ++ [(e.id, now)] ∧
    (∀ now', s.queue.items = [] → now + e.interval * ts ≤ now' →
      (tick clearSelfCb now' (evaluateScoreEvent clearSelfCb e now ts s)).log
        = (s.log ++ [(e.id, now)]) ++ [(e.id, now')]) := by
  have hnoop : s.queue.remove e = s.queue := by
    unfold PQueue.remove
    have : s.queue.items.eraseP (fun x => x.id == e.id) = s.queue.items := by
      refine List.eraseP_of_forall_not ?_
      intro a ha
      have := List.filter_eq_nil_iff.mp (List.length_eq_zero.mp habs) a ha
      simpa using this
    rw [this]
  have hcond : (e.type == some "repeat" && jsEndGt e.endv now) = true := by
    rw [hrep, hend]
    rfl
  have heval : evaluateScoreEvent clearSelfCb e now ts s
      = { queue := s.queue.push (rearm now ts e), timeScale := s.timeScale,
          time := s.time, log := s.log ++ [(e.id, now)] } := by
    unfold evaluateScoreEvent clearSelfCb logCb clear
    rw [hcond, if_pos rfl, hnoop]
    rfl
  refine ⟨by rw [heval]; rfl, by rw [heval], ?_⟩
  intro now' hempty hle
  have hqueue : (evaluateScoreEvent clearSelfCb e now ts s).queue = ⟨[rearm now ts e]⟩ := by
    rw [heval]
    show s.queue.push (rearm now ts e) = _
    unfold PQueue.push
    rw [hempty, List.nil_append]
  have hstate : evaluateScoreEvent clearSelfCb e now ts s
      = ⟨⟨[rearm now ts e]⟩, s.timeScale, s.time, s.log ++ [(e.id, now)]⟩ := by
    rw [heval]
    rw [show s.queue.push (rearm now ts e) = (⟨[rearm now ts e]⟩ : PQueue) from by
      unfold PQueue.push; rw [hempty, List.nil_append]]
  rw [hstate]
  have hdue : (rearm now ts e).priority ≤ now' := by
    rw [rearm_priority]
    exact hle
  have := tick_singleton_clearSelf now' s.timeScale s.time (rearm now ts e)
    (s.log ++ [(e.id, now)]) hdue
  rw [this, rearm_id]

/-- A concrete still-running repeat spec for the C10 witness. -/
def c10spec : EventSpec :=
  ⟨some "repeat", some 0, some 1, some JsTime.inf, some 8, some 0, 1, 0, 7⟩

def c10state : SchedulerState :=
  ⟨⟨[]⟩, 1, 0, []⟩

attribute [local semireducible] Rat.add Rat.mul Rat.sub Rat.inv in
theorem clear_self_in_callback_witness :
    (evaluateScoreEvent clearSelfCb c10spec 0 1 c10state).queue.items
        = c10state.queue.items ++ [rearm 0 1 c10spec] ∧
    (evaluateScoreEvent clearSelfCb c10spec 0 1 c10state).log
        = c10state.log ++ [(c10spec.id, 0)] ∧
    (∀ now', c10state.queue.items = [] → 0 + c10spec.interval * 1 ≤ now' →
      (tick clearSelfCb now' (evaluateScoreEvent clearSelfCb c10spec 0 1 c10state)).log
        = (c10state.log ++ [(c10spec.id, 0)]) ++ [(c10spec.id, now')]) :=
  clear_self_in_callback_ineffective c10spec 0 1 c10state rfl rfl (by decide)

end scheduler

end berg

namespace berg

namespace scheduler

/-- The firing record predicted by the (amended) spec for a single
repeating chain evaluated exactly at its occurrence times: starting at
occurrence time `p` with period `ivl`, the spec with identity `i` fires
at `p`, `p + ivl`, `p + 2*ivl`, …, stopping with (and including) the
first occurrence that has reached the absolute end `endAbs`. -/
def gridFires (i : Nat) (endAbs p ivl : ℚ) : ℕ → List (Nat × ℚ)
  | 0 => []
  | m + 1 =>
    (i, p) :: (if p < endAbs then gridFires i endAbs (p + ivl) ivl m else [])

theorem runTicks_empty_queue (times : List ℚ) :
    ∀ (ts tm : ℚ) (lg : List (Nat × ℚ)),
    runTicks logCb times ⟨⟨[]⟩, ts, tm, lg⟩ = ⟨⟨[]⟩, ts, tm, lg⟩ := by
  induction times with
  | nil => intro ts tm lg; rfl
  | cons n rest ih =>
    intro ts tm lg
    exact ih ts tm lg

/-- One tick on a singleton queue whose item is due, with the
observational callback. -/
theorem tick_singleton_logCb (now ts' tm : ℚ) (r : EventSpec)
    (lg : List (Nat × ℚ)) (hdue : r.priority ≤ now) :
    tick logCb now ⟨⟨[r]⟩, ts', tm, lg⟩
      = ⟨⟨if willRearm now r then [rearm now ts' r] else []⟩, ts', tm,
         lg ++ [(r.id, now)]⟩ := by
  have hpeek : (⟨[r]⟩ : PQueue).peek = some r := by
    simp [PQueue.peek]
  show tickLoop logCb 1 now ts' ⟨⟨[r]⟩, ts', tm, lg⟩ = _
  simp only [tickLoop, hpeek, hdue, if_pos]
  rw [evaluateScoreEvent_logCb]
  have hq1 : ((⟨PQueue.pop ⟨[r]⟩, ts', tm, lg⟩ : SchedulerState)).queue.items = [] := by
    show (PQueue.pop ⟨[r]⟩).items = []
    rw [PQueue.pop_items hpeek]
    simp
  rw [hq1, List.nil_append]

/-- Exactly-timed drain of a lone repeating chain at time scale 1: the
log grows by precisely the firings `gridFires` predicts. -/
theorem repeat_grid_aux (m : ℕ) :
    ∀ (E : EventSpec) (endAbs tm : ℚ) (L : List (Nat × ℚ)),
    E.type = some "repeat" →
    E.endv = some (JsTime.num endAbs) →
    (runTicks logCb ((List.range m).map (fun j : ℕ => E.priority + (j : ℚ) * E.interval))
        ⟨⟨[E]⟩, 1, tm, L⟩).log
      = L ++ gridFires E.id endAbs E.priority E.interval m := by
  induction m with
  | zero =>
    intro E endAbs tm L _ _
    simp [runTicks, gridFires]
  | succ m ih =>
    intro E endAbs tm L hty hend
    rw [List.range_succ_eq_map, List.map_cons]
    have h0 : E.priority + ((0 : ℕ) : ℚ) * E.interval = E.priority := by
      push_cast
      ring
    rw [h0, runTicks_cons]
    have hw : willRearm E.priority E = decide (E.priority < endAbs) := by
      simp [willRearm, hty, hend, jsEndGt]
    rw [tick_singleton_logCb E.priority 1 tm E L le_rfl]
    by_cases hlt : E.priority < endAbs
    · have hwt : willRearm E.priority E = true := by
        rw [hw]
        simpa using hlt
      rw [if_pos hwt]
      set E' := rearm E.priority 1 E with hE'
      have hE'p : E'.priority = E.priority + E.interval := by
        rw [hE', rearm_priority]
        ring
      have hmap : (List.range m).map
            ((fun j : ℕ => E.priority + (j : ℚ) * E.interval) ∘ Nat.succ)
          = (List.range m).map (fun j : ℕ => E'.priority + (j : ℚ) * E'.interval) := by
        refine List.map_congr_left ?_
        intro j _
        show E.priority + ((j + 1 : ℕ) : ℚ) * E.interval = E'.priority + (j : ℚ) * E'.interval
        rw [hE'p, rearm_interval]
        push_cast
        ring
      rw [List.map_map, hmap]
      rw [ih E' endAbs tm (L ++ [(E.id, E.priority)]) hty hend]
      rw [show E'.id = E.id from rfl, show E'.priority = E.priority + E.interval from hE'p,
        show E'.interval = E.interval from rfl]
      rw [gridFires, if_pos hlt]
      simp
    · have hwf : willRearm E.priority E = false := by
        rw [hw]
        simpa using hlt
      rw [if_neg (by rw [hwf]; exact Bool.false_ne_true)]
      rw [List.map_map]
      rw [runTicks_empty_queue]
      rw [gridFires, if_neg hlt]

end scheduler

end berg

namespace berg

namespace scheduler

theorem scheduleEvent_repeat_future (f t eoff s : ℚ) (c i : Nat) (ht : 0 < t) :
    scheduleEvent logCb
        ⟨some "repeat", some t, some f, some (JsTime.num eoff), some c, none, 0, 0, i⟩
        ⟨⟨[]⟩, 1, s, []⟩
      = Except.ok
          (⟨some "repeat", some t, some f, some (JsTime.num (eoff + s)), some c, some s,
             1 / f, s + t, i⟩,
           ⟨⟨[⟨some "repeat", some t, some f, some (JsTime.num (eoff + s)), some c, some s,
              1 / f, s + t, i⟩]⟩, 1, s, []⟩) := by
  have hnle : ¬ (s + t * 1 ≤ s) := by linarith
  have hnt : ¬ t ≤ 0 := not_le.mpr ht
  simp [scheduleEvent, expandRepeatingEventSpec, validateEventSpec, calcPriority,
    PQueue.push, hnle, hnt]

/-- C4 (amended): a Repeat spec with start offset `t > 0`, frequency
`f` and end offset `eoff`, scheduled at clock time `s` under time scale
1 and then ticked exactly at its occurrence times `s+t, s+t+1/f, …`,
fires at precisely those times up to and including the first occurrence
that has reached `s + eoff` (see `gridFires`); afterwards it is gone.
(Re-arming uses the actual fire time, so with late ticks the occurrence
times shift and the last firing may land after `s + eoff`.) -/
theorem repeat_fires_on_grid (f t eoff s : ℚ) (c i : Nat) (n : ℕ)
    (e1 : EventSpec) (s1 : SchedulerState)
    (ht : 0 < t)
    (hsch : scheduleEvent logCb
        ⟨some "repeat", some t, some f, some (JsTime.num eoff), some c, none, 0, 0, i⟩
        ⟨⟨[]⟩, 1, s, []⟩ = Except.ok (e1, s1)) :
    (runTicks logCb ((List.range n).map (fun k : ℕ => (s + t) + (k : ℚ) * (1 / f))) s1).log
      = gridFires i (eoff + s) (s + t) (1 / f) n := by
  rw [scheduleEvent_repeat_future f t eoff s c i ht, Except.ok.injEq, Prod.mk.injEq] at hsch
  obtain ⟨he, hs1⟩ := hsch
  subst he
  subst hs1
  have h := repeat_grid_aux n
    ⟨some "repeat", some t, some f, some (JsTime.num (eoff + s)), some c, some s,
      1 / f, s + t, i⟩ (eoff + s) s [] rfl rfl
  simpa using h

/-- A repeat whose end offset is not on its occurrence grid. -/
def c4spec : EventSpec :=
  ⟨some "repeat", some 0, some 2, some (JsTime.num (9 / 10)), some 1, none, 0, 0, 5⟩

attribute [local semireducible] Rat.add Rat.mul Rat.sub Rat.inv in
/-- C4 counterexample: `repeat(freq 2, time 0, end 9/10)` scheduled at
time 0 and ticked at 1/2 and 1 fires at 0, 1/2 AND at 1 — a firing at a
time strictly after `s + e = 9/10`, which the claim rules out. -/
theorem repeat_fires_after_end :
    (scheduleEvent logCb c4spec ⟨⟨[]⟩, 1, 0, []⟩).toOption.map
        (fun p => (runTicks logCb [1 / 2, 1] p.2).log)
      = some [(5, 0), (5, 1 / 2), (5, 1)] ∧
    (9 / 10 : ℚ) < 1 :=
  ⟨rfl, by decide⟩

attribute [local semireducible] Rat.add Rat.mul Rat.sub Rat.inv in
theorem repeat_fires_on_grid_witness :
    (runTicks logCb ((List.range 4).map (fun k : ℕ => ((0 : ℚ) + 1) + (k : ℚ) * (1 / 2)))
        ⟨⟨[⟨some "repeat", some 1, some 2, some (JsTime.num (2 + 0)), some 1, some 0,
           1 / 2, 0 + 1, 5⟩]⟩, 1, 0, []⟩).log
      = gridFires 5 (2 + 0) (0 + 1) (1 / 2) 4 :=
  repeat_fires_on_grid 2 1 2 0 1 5 4
    ⟨some "repeat", some 1, some 2, some (JsTime.num (2 + 0)), some 1, some 0,
      1 / 2, 0 + 1, 5⟩
    ⟨⟨[⟨some "repeat", some 1, some 2, some (JsTime.num (2 + 0)), some 1, some 0,
       1 / 2, 0 + 1, 5⟩]⟩, 1, 0, []⟩
    (by decide) rfl

end scheduler

end berg
